import Mathlib

/-!
Verification development for the recipe search client (src/App.tsx).

The file embeds the four logic-bearing components of the app — the record
normalizer `mapMealToRecipe`, the instruction segmenter behind
`preparationSteps`, the search gateway `loadRecipes` / `fetchAndTrack`,
and the debounce effect of the `App` component — as executable Lean
definitions, and proves the specified properties about them.

Strings are modelled by Lean `String` (a wrapper around `List Char`);
character-level processing (trimming, splitting, the step-marker regex)
is defined on `List Char` and lifted.
-/

/-- JS whitespace test used by `String.prototype.trim` and by the regex
class `\s`, restricted to the ASCII range: space, tab, line feed,
carriage return, vertical tab and form feed. -/
def jsWs (c : Char) : Bool :=
  c == ' ' || c == '\t' || c == '\n' || c == '\r' || c == '\x0b' || c == '\x0c'

/-- Remove trailing JS whitespace from a character list. -/
def dropTrailing (l : List Char) : List Char :=
  (l.reverse.dropWhile jsWs).reverse

/-- Remove leading and trailing JS whitespace: the character-level model of
`String.prototype.trim`. -/
def trimChars (l : List Char) : List Char :=
  dropTrailing (l.dropWhile jsWs)

/-- Model of `s.trim()` from the source. -/
def jsTrim (s : String) : String := ⟨trimChars s.data⟩

/-- Wire record (`MealFromApi`, src/App.tsx lines 39-49): required id and
name, nullable optional fields, and the dynamically keyed
`strIngredient1..20` / `strMeasure1..20` slots modelled as positional
lookup functions (`none` = the field is `null` or absent). -/
structure MealFromApi where
  idMeal : String
  strMeal : String
  strCategory : Option String
  strArea : Option String
  strInstructions : Option String
  strMealThumb : Option String
  strTags : Option String
  strSource : Option String
  strIngredient : Nat → Option String
  strMeasure : Nat → Option String

/-- Domain record (`Recipe`, src/App.tsx lines 27-37). -/
structure Recipe where
  id : String
  name : String
  category : Option String
  area : Option String
  instructions : Option String
  ingredients : List String
  image : Option String
  tags : Option (List String)
  source : Option String
deriving DecidableEq

/-- `INGREDIENT_RANGE` (src/App.tsx line 52): the positions 1..20. -/
def INGREDIENT_RANGE : List Nat := (List.range 20).map (· + 1)

/-- The per-position body of the `INGREDIENT_RANGE.map` callback in
`mapMealToRecipe` (src/App.tsx lines 88-102): `none` models the returned
`null`. JS truthiness: `!ingredient` rejects `null`/`undefined`/`""`, and
`!ingredient.trim()` rejects whitespace-only names, so the position is
skipped exactly when the name is absent or blank after trimming; the
measure prefix is used when `measure?.trim()` is truthy (present and
nonempty) and not the literal `"0"`. -/
def ingredientEntry (meal : MealFromApi) (position : Nat) : Option String :=
  match meal.strIngredient position with
  | none => none
  | some ingredient =>
    if jsTrim ingredient = "" then none
    else
      match (meal.strMeasure position).map jsTrim with
      | some cleanMeasure =>
        if cleanMeasure ≠ "" ∧ cleanMeasure ≠ "0" then
          some (cleanMeasure ++ " " ++ jsTrim ingredient)
        else some (jsTrim ingredient)
      | none => some (jsTrim ingredient)

/-- Model of `.filter(Boolean)` on a `(string | null)[]` (src/App.tsx
line 102): drops `null` and the empty string, both falsy. -/
def jsFilterBoolean (l : List (Option String)) : List String :=
  l.filterMap fun o =>
    match o with
    | some s => if s = "" then none else some s
    | none => none

/-- Character-level model of `String.prototype.split(",")`. -/
def splitCommaAux : List Char → List Char → List (List Char)
  | [], acc => [acc.reverse]
  | c :: rest, acc =>
    if c = ',' then acc.reverse :: splitCommaAux rest []
    else splitCommaAux rest (c :: acc)

/-- Model of `s.split(",")` from the tags handling. -/
def jsSplitCommas (s : String) : List String :=
  (splitCommaAux s.data []).map fun l => ⟨l⟩

/-- The record normalizer `mapMealToRecipe` (src/App.tsx lines 87-118). -/
def mapMealToRecipe (meal : MealFromApi) : Recipe :=
  { id := meal.idMeal
    name := meal.strMeal
    category := meal.strCategory
    area := meal.strArea
    instructions := meal.strInstructions
    ingredients := jsFilterBoolean (INGREDIENT_RANGE.map (ingredientEntry meal))
    image := meal.strMealThumb
    tags := meal.strTags.map fun t =>
      ((jsSplitCommas t).map jsTrim).filter (fun s => s != "")
    source := meal.strSource }

/-- A wire record with every optional field absent, used to build the
concrete examples. -/
def emptyMeal : MealFromApi :=
  { idMeal := "52772"
    strMeal := "Test Meal"
    strCategory := none
    strArea := none
    strInstructions := none
    strMealThumb := none
    strTags := none
    strSource := none
    strIngredient := fun _ => none
    strMeasure := fun _ => none }

/-- Wire record `{ingredient1: "Salt", measure1: "0"}`. -/
def saltMeal : MealFromApi :=
  { emptyMeal with
    strIngredient := fun p => if p = 1 then some "Salt" else none
    strMeasure := fun p => if p = 1 then some "0" else none }

/-- Wire record `{ingredient1: "Flour", measure1: "200g"}`. -/
def flourMeal : MealFromApi :=
  { emptyMeal with
    strIngredient := fun p => if p = 1 then some "Flour" else none
    strMeasure := fun p => if p = 1 then some "200g" else none }

/-- Wire record `{ingredient1: " ", measure1: "1 cup"}`. -/
def blankIngredientMeal : MealFromApi :=
  { emptyMeal with
    strIngredient := fun p => if p = 1 then some " " else none
    strMeasure := fun p => if p = 1 then some "1 cup" else none }

example : (mapMealToRecipe saltMeal).ingredients = ["Salt"] := by decide
example : (mapMealToRecipe flourMeal).ingredients = ["200g Flour"] := by decide
example : (mapMealToRecipe blankIngredientMeal).ingredients = [] := by decide

/-- Character-level model of `String.prototype.split(/\r?\n+/)` used by
`preparationSteps` (src/App.tsx line 297). The scan processes one
character per step; `inRun` records that the scanner is inside the `\n+`
part of a separator match, and `acc` holds the current piece reversed.
A `'\r'` belongs to a separator exactly when the next character is
`'\n'`; otherwise it is an ordinary piece character. -/
def splitNlAux : List Char → Bool → List Char → List (List Char)
  | [], inRun, acc => if inRun then [[]] else [acc.reverse]
  | c :: rest, inRun, acc =>
    if c = '\n' then
      if inRun then splitNlAux rest true []
      else acc.reverse :: splitNlAux rest true []
    else if c = '\r' ∧ rest.head? = some '\n' then
      (if inRun then ([] : List Char) else acc.reverse) :: splitNlAux rest true []
    else
      if inRun then splitNlAux rest false [c]
      else splitNlAux rest false (c :: acc)

/-- Splitting on the separator regex `\r?\n+`, as in the source. -/
def codeSplit (l : List Char) : List (List Char) := splitNlAux l false []

/-- Spec-worded splitter: split on maximal runs of one-or-more
consecutive line-break (line-feed) characters. Used only to state the
refinement claim about the segmenter; the source-faithful splitter is
`codeSplit`. -/
def specSplitAux : List Char → Bool → List Char → List (List Char)
  | [], inRun, acc => if inRun then [[]] else [acc.reverse]
  | c :: rest, inRun, acc =>
    if c = '\n' then
      if inRun then specSplitAux rest true []
      else acc.reverse :: specSplitAux rest true []
    else
      if inRun then specSplitAux rest false [c]
      else specSplitAux rest false (c :: acc)

/-- Spec-worded splitting on runs of line breaks. -/
def specSplit (l : List Char) : List (List Char) := specSplitAux l false []

/-- Closing character of a numeric step marker: the class `[).]`. -/
def isCloser (c : Char) : Bool := c == ')' || c == '.'

/-- Model of `step.replace(/^\d+[).]\s*/, "")` (src/App.tsx line 298):
if the piece starts with one-or-more ASCII digits followed by `)` or
`.`, remove them together with the following whitespace run; otherwise
return the piece unchanged. -/
def stripMarker (l : List Char) : List Char :=
  match l.takeWhile Char.isDigit, l.dropWhile Char.isDigit with
  | [], _ => l
  | _ :: _, c :: rest => if isCloser c then rest.dropWhile jsWs else l
  | _ :: _, [] => l

/-- The per-piece transform of `preparationSteps`: strip a leading
numeric marker, then trim. -/
def cleanPiece (l : List Char) : List Char := trimChars (stripMarker l)

/-- The segmentation pipeline of `preparationSteps` at character level:
split on `\r?\n+`, strip markers, trim, drop empty pieces (the JS
`filter(Boolean)`). -/
def segmentChars (l : List Char) : List (List Char) :=
  ((codeSplit l).map cleanPiece).filter (fun p => !p.isEmpty)

/-- Spec-worded segmentation pipeline, built on `specSplit`. -/
def segmentSpecChars (l : List Char) : List (List Char) :=
  ((specSplit l).map cleanPiece).filter (fun p => !p.isEmpty)

/-- The `preparationSteps` computation (src/App.tsx lines 291-300) as a
function of the selected record's instructions field. The guard
`!selectedRecipe?.instructions` returns `[]` both for an absent field
and for the (falsy) empty string. -/
def preparationSteps (instructions : Option String) : List String :=
  match instructions with
  | none => []
  | some s =>
    if s = "" then []
    else (segmentChars s.data).map fun l => ⟨l⟩

/-- Join character-level pieces with a single line feed. -/
def joinNl : List (List Char) → List Char
  | [] => []
  | [p] => p
  | p :: ps => p ++ '\n' :: joinNl ps

/-- Join strings with newline characters (for the idempotence claim). -/
def joinLines (l : List String) : String := ⟨joinNl (l.map String.data)⟩

example :
    preparationSteps (some "1. Boil water\n2) Add salt\n\nServe hot") =
      ["Boil water", "Add salt", "Serve hot"] := by decide
example : preparationSteps none = [] := by decide
example : preparationSteps (some "1. 2. Boil") = ["2. Boil"] := by decide
example :
    preparationSteps (some (joinLines (preparationSteps (some "1. 2. Boil")))) =
      ["Boil"] := by decide

/-- Shape of the `meals` field of the parsed response envelope
(`payload?.meals`, src/App.tsx line 150): the JSON `null` sentinel, a
list of wire records, some other present shape (not a list), or absent
(`undefined`, including a nullish payload). -/
inductive MealsField where
  | jsNull
  | list (meals : List MealFromApi)
  | otherShape
  | absent

/-- An HTTP response as the gateway observes it: numeric status plus the
parsed envelope's `meals` field. -/
structure HttpResponse where
  status : Nat
  meals : MealsField

/-- Fetch's `Response.ok`: status in the inclusive range 200..299. -/
def statusOk (status : Nat) : Bool := 200 ≤ status && status ≤ 299

/-- Outcome of the single transport call: a response, or a
transport-level failure carrying the thrown error's message. -/
inductive FetchResult where
  | response (resp : HttpResponse)
  | networkFailure (message : String)

/-- Error taxonomy of the gateway. Each constructor corresponds to one
failure path of `loadRecipes` (src/App.tsx lines 136-171): a rejected
`fetch` call, the non-ok-status `throw` at line 144, and the
malformed-envelope `throw` at line 158. The code distinguishes the
paths only by their messages, carried here verbatim. -/
inductive SearchError where
  | transportError (message : String)
  | httpError (message : String)
  | malformedResponseError (message : String)
deriving DecidableEq

/-- The human-readable message of a gateway failure (what the `catch` in
`loadRecipes` stores via `setErrorMessage`). -/
def SearchError.message : SearchError → String
  | .transportError m => m
  | .httpError m => m
  | .malformedResponseError m => m

/-- Result of one gateway call. -/
inductive SearchOutcome where
  | success (recipes : List Recipe)
  | failure (error : SearchError)
deriving DecidableEq

/-- The message of the non-ok-status `throw` (src/App.tsx lines 144-146). -/
def httpErrorMessage (status : Nat) : String :=
  "Unable to reach recipe service (status " ++ toString status ++ ")"

/-- The message of the malformed-envelope `throw` (src/App.tsx line 158). -/
def malformedMessage : String := "Recipe data malformed: missing meals array."

/-- The gateway logic of `loadRecipes` (src/App.tsx lines 136-171) as a
function of the transport call's outcome: non-ok status throws before
the body is read; a `null` meals field succeeds with the empty list; a
non-list meals field throws; a list is mapped through
`mapMealToRecipe` in order. -/
def loadRecipes : FetchResult → SearchOutcome
  | .networkFailure msg => .failure (.transportError msg)
  | .response resp =>
    if statusOk resp.status then
      match resp.meals with
      | .jsNull => .success []
      | .list meals => .success (meals.map mapMealToRecipe)
      | .otherShape => .failure (.malformedResponseError malformedMessage)
      | .absent => .failure (.malformedResponseError malformedMessage)
    else .failure (.httpError (httpErrorMessage resp.status))

/-- The `status` state of the orchestrator (src/App.tsx line 122). -/
inductive Status where
  | idle
  | loading
  | error
deriving DecidableEq

/-- The mutable search state: `recipes`, `status`, `errorMessage`
(src/App.tsx lines 121-123). -/
structure SearchState where
  recipes : List Recipe
  status : Status
  errorMessage : Option String
deriving DecidableEq

/-- The state updates performed by `loadRecipes` itself, in source
order: clear `errorMessage`, then on success store the new recipes, on
failure store the failure's message and rethrow. The boolean reports
whether the call threw. -/
def loadRecipesUpdate (s : SearchState) (result : FetchResult) : SearchState × Bool :=
  let s1 : SearchState := { s with errorMessage := none }
  match loadRecipes result with
  | .success rs => ({ s1 with recipes := rs }, false)
  | .failure e => ({ s1 with errorMessage := some e.message }, true)

/-- One complete dispatch: `fetchAndTrack` (src/App.tsx lines 173-184)
sets `status` to `loading`, runs `loadRecipes`, then sets `idle` or
`error` according to whether it threw. -/
def fetchAndTrack (s : SearchState) (result : FetchResult) : SearchState :=
  let s1 : SearchState := { s with status := .loading }
  match loadRecipesUpdate s1 result with
  | (s2, true) => { s2 with status := .error }
  | (s2, false) => { s2 with status := .idle }

/-- The state at the suspension point of a dispatch: everything
`fetchAndTrack`/`loadRecipes` does synchronously before the transport
call resolves (`setStatus("loading")`, `setErrorMessage(null)`). -/
def dispatchPending (s : SearchState) : SearchState :=
  { s with status := .loading, errorMessage := none }

/-- The completion handler of a dispatch, applied to the pending state
once the transport call resolves. -/
def dispatchResume (s : SearchState) (result : FetchResult) : SearchState :=
  match loadRecipes result with
  | .success rs => { s with recipes := rs, status := .idle }
  | .failure e => { s with status := .error, errorMessage := some e.message }

/-- The debounce machinery of the `App` component (src/App.tsx lines
127-128 and 190-209): the set of armed, unfired `setTimeout` timers
(each carrying the query text captured by its closure), the fresh-id
counter, `searchTimeoutRef`, `initialLoadRef`, and the ordered list of
dispatched search terms. -/
structure TimerSystem where
  timers : List (Nat × String)
  nextId : Nat
  ref : Option Nat
  initialLoad : Bool
  dispatched : List String
deriving DecidableEq

/-- The term handed to `fetchAndTrack` by the debounce callback
(src/App.tsx line 201): the captured query text, trimmed. -/
def debounceDispatchTerm (query : String) : String := jsTrim query

/-- The term handed to `fetchAndTrack` by `onRefresh` (src/App.tsx
line 213): the current query text, trimmed. -/
def refreshDispatchTerm (query : String) : String := jsTrim query

/-- The term handed to `fetchAndTrack` by the error-retry button
(src/App.tsx line 341): the current query text, trimmed. -/
def retryDispatchTerm (query : String) : String := jsTrim query

/-- One run of the debounce effect (src/App.tsx lines 190-209), driven
by a change of the query text: on the very first run it only clears
`initialLoadRef`; afterwards it cancels the timer named by
`searchTimeoutRef` (if still pending) and arms a fresh timer capturing
the current query text. -/
def onQueryChange (s : TimerSystem) (query : String) : TimerSystem :=
  if s.initialLoad then { s with initialLoad := false }
  else
    { s with
      timers :=
        (match s.ref with
         | some id => s.timers.filter (fun t => t.1 != id)
         | none => s.timers) ++ [(s.nextId, query)]
      ref := some s.nextId
      nextId := s.nextId + 1 }

/-- Firing of an armed timer: the timer stops being pending and its
callback dispatches the captured query text, trimmed (src/App.tsx
lines 200-202). Firing an unknown id does nothing. -/
def onTimerFire (s : TimerSystem) (id : Nat) : TimerSystem :=
  match s.timers.find? (fun t => t.1 == id) with
  | some t =>
    { s with
      timers := s.timers.filter (fun u => u.1 != id)
      dispatched := s.dispatched ++ [debounceDispatchTerm t.2] }
  | none => s

/-- The initial value of the search state (src/App.tsx lines 121-123):
`useState([])`, `useState("idle")`, `useState(null)`. -/
def initialSearchState : SearchState :=
  { recipes := [], status := .idle, errorMessage := none }

/-- The timer system before any effect has run: no timers, null ref,
`initialLoadRef.current = true`. -/
def initialTimerSystem : TimerSystem :=
  { timers := [], nextId := 0, ref := none, initialLoad := true, dispatched := [] }

/-- Record a dispatch issued directly (not through a timer). -/
def recordDispatch (s : TimerSystem) (term : String) : TimerSystem :=
  { s with dispatched := s.dispatched ++ [term] }

/-- Mounting the component runs the effects in declaration order: the
initial-load effect (src/App.tsx lines 186-188) dispatches
`fetchAndTrack("")`, then the debounce effect observes the initial
query value `""` and, finding `initialLoadRef` set, only clears it. -/
def mountApp : TimerSystem :=
  onQueryChange (recordDispatch initialTimerSystem "") ""

/-- At most one armed timer: either none, or exactly the one named by
`searchTimeoutRef`. -/
def TimerInv (s : TimerSystem) : Prop :=
  s.timers = [] ∨ ∃ id q, s.timers = [(id, q)] ∧ s.ref = some id

example : mountApp.dispatched = [""] ∧ mountApp.timers = [] := by decide
example :
    (onTimerFire (onQueryChange (onQueryChange mountApp "a") " ab ") 1).dispatched
      = ["", "ab"] := by decide

theorem dropWhile_head_not {p : Char → Bool} {l : List Char} {c : Char} {t : List Char}
    (h : l.dropWhile p = c :: t) : p c = false := by
  have hm := List.head?_dropWhile_not p l
  rw [h] at hm
  simpa using hm

theorem dropWhile_eq_self_of_head {p : Char → Bool} {l : List Char}
    (h : ∀ c ∈ l.head?, p c = false) : l.dropWhile p = l := by
  cases l with
  | nil => rfl
  | cons a t =>
    have ha : p a = false := h a rfl
    simp [List.dropWhile_cons, ha]

theorem getLast?_dropWhile {p : Char → Bool} {l : List Char}
    (h : l.dropWhile p ≠ []) : (l.dropWhile p).getLast? = l.getLast? := by
  induction l with
  | nil => simp at h
  | cons a t ih =>
    by_cases ha : p a = true
    · rw [List.dropWhile_cons, if_pos ha] at h ⊢
      have ht : t ≠ [] := by
        intro he
        rw [he] at h
        simp at h
      cases t with
      | nil => exact absurd rfl ht
      | cons b t' =>
        rw [List.getLast?_cons_cons]
        exact ih h
    · rw [List.dropWhile_cons, if_neg ha]

theorem trimChars_eq_self {l : List Char}
    (h1 : ∀ c ∈ l.head?, jsWs c = false)
    (h2 : ∀ c ∈ l.getLast?, jsWs c = false) : trimChars l = l := by
  have hr : ∀ c ∈ l.reverse.head?, jsWs c = false := by
    intro c hc
    rw [List.head?_reverse] at hc
    exact h2 c hc
  unfold trimChars dropTrailing
  rw [dropWhile_eq_self_of_head h1, dropWhile_eq_self_of_head hr, List.reverse_reverse]

theorem getLast?_trimChars {l : List Char} {c : Char}
    (h : (trimChars l).getLast? = some c) : jsWs c = false := by
  unfold trimChars dropTrailing at h
  rw [List.getLast?_reverse] at h
  rcases List.head?_eq_some_iff.1 h with ⟨ys, hy⟩
  exact dropWhile_head_not hy

theorem head?_trimChars {l : List Char} {c : Char}
    (h : (trimChars l).head? = some c) : jsWs c = false := by
  unfold trimChars dropTrailing at h
  rw [List.head?_reverse] at h
  by_cases hne : (l.dropWhile jsWs).reverse.dropWhile jsWs = []
  · rw [hne] at h
    simp at h
  · rw [getLast?_dropWhile hne, List.getLast?_reverse] at h
    rcases List.head?_eq_some_iff.1 h with ⟨ys, hy⟩
    exact dropWhile_head_not hy

theorem trimChars_idem (l : List Char) : trimChars (trimChars l) = trimChars l := by
  apply trimChars_eq_self
  · intro c hc
    exact head?_trimChars hc
  · intro c hc
    exact getLast?_trimChars hc

theorem dropTrailing_append_cr (l : List Char) :
    dropTrailing (l ++ ['\r']) = dropTrailing l := by
  unfold dropTrailing
  have hrev : (l ++ ['\r']).reverse = '\r' :: l.reverse := by simp
  rw [hrev, List.dropWhile_cons]
  simp [show jsWs '\r' = true from by decide]

theorem trimChars_append_cr (l : List Char) : trimChars (l ++ ['\r']) = trimChars l := by
  unfold trimChars
  rw [List.dropWhile_append]
  by_cases h : (List.dropWhile jsWs l).isEmpty = true
  · rw [if_pos h, List.isEmpty_iff.mp h]
    decide
  · rw [if_neg h]
    exact dropTrailing_append_cr _

theorem mem_of_mem_dropWhile {p : Char → Bool} {l : List Char} {c : Char}
    (h : c ∈ l.dropWhile p) : c ∈ l :=
  (List.dropWhile_sublist p).subset h

theorem mem_of_mem_trimChars {l : List Char} {c : Char} (h : c ∈ trimChars l) : c ∈ l := by
  unfold trimChars dropTrailing at h
  rw [List.mem_reverse] at h
  have h2 := mem_of_mem_dropWhile h
  rw [List.mem_reverse] at h2
  exact mem_of_mem_dropWhile h2

theorem mem_of_mem_stripMarker {l : List Char} {c : Char} (h : c ∈ stripMarker l) : c ∈ l := by
  unfold stripMarker at h
  rcases hd : l.takeWhile Char.isDigit with _ | ⟨d, ds⟩ <;>
    rcases he : l.dropWhile Char.isDigit with _ | ⟨e, es⟩ <;>
      simp only [hd, he] at h
  · exact h
  · exact h
  · exact h
  · by_cases hce : isCloser e = true
    · rw [if_pos hce] at h
      have h2 : c ∈ e :: es := List.mem_cons_of_mem e (mem_of_mem_dropWhile h)
      rw [← he] at h2
      exact mem_of_mem_dropWhile h2
    · rw [if_neg hce] at h
      exact h

theorem jsTrim_idem (s : String) : jsTrim (jsTrim s) = jsTrim s := by
  unfold jsTrim
  exact congrArg String.mk (trimChars_idem s.data)

theorem string_eq_empty_iff (s : String) : s = "" ↔ s.data = [] := by
  rw [String.ext_iff]

theorem head?_append_cons {a : List Char} (ha : a ≠ []) (x : Char) (b : List Char) :
    (a ++ x :: b).head? = a.head? := by
  cases a with
  | nil => exact absurd rfl ha
  | cons a0 t => rfl

theorem getLast?_append_cons (a : List Char) (x : Char) {b : List Char} (hb : b ≠ []) :
    (a ++ x :: b).getLast? = b.getLast? := by
  rw [List.getLast?_append]
  cases b with
  | nil => exact absurd rfl hb
  | cons b0 t =>
    rw [List.getLast?_cons_cons]
    cases hgl : (b0 :: t).getLast? with
    | none =>
      rw [List.getLast?_eq_none_iff] at hgl
      exact absurd hgl (by simp)
    | some v => rfl

theorem trimChars_sep_append {a b : List Char}
    (ha : a ≠ []) (hb : b ≠ [])
    (hta : trimChars a = a) (htb : trimChars b = b) :
    trimChars (a ++ ' ' :: b) = a ++ ' ' :: b := by
  apply trimChars_eq_self
  · intro c hc
    rw [Option.mem_def, head?_append_cons ha] at hc
    rw [← hta] at hc
    exact head?_trimChars hc
  · intro c hc
    rw [Option.mem_def, getLast?_append_cons a ' ' hb] at hc
    rw [← htb] at hc
    exact getLast?_trimChars hc

theorem ingredientEntry_cases {meal : MealFromApi} {pos : Nat} {e : String}
    (h : ingredientEntry meal pos = some e) :
    ∃ ing, meal.strIngredient pos = some ing ∧ jsTrim ing ≠ "" ∧
      (e = jsTrim ing ∨
       ∃ m, meal.strMeasure pos = some m ∧ jsTrim m ≠ "" ∧ jsTrim m ≠ "0" ∧
         e = jsTrim m ++ " " ++ jsTrim ing) := by
  unfold ingredientEntry at h
  split at h
  · exact absurd h (by simp)
  · rename_i ing hing
    split at h
    · exact absurd h (by simp)
    · rename_i ht
      refine ⟨ing, hing, ht, ?_⟩
      split at h
      · rename_i cm hmap
        rcases Option.map_eq_some'.mp hmap with ⟨m, hm, hcm⟩
        split at h
        · rename_i hcond
          subst hcm
          exact Or.inr ⟨m, hm, hcond.1, hcond.2, (Option.some.inj h).symm⟩
        · exact Or.inl (Option.some.inj h).symm
      · exact Or.inl (Option.some.inj h).symm

theorem jsTrim_entry_ne_empty {meal : MealFromApi} {pos : Nat} {e : String}
    (h : ingredientEntry meal pos = some e) : jsTrim e ≠ "" := by
  rcases ingredientEntry_cases h with ⟨ing, hing, hne, hcase | ⟨m, hm, hmne, hm0, heq⟩⟩
  · rw [hcase, jsTrim_idem]
    exact hne
  · have hdata : e.data = trimChars m.data ++ ' ' :: trimChars ing.data := by
      rw [heq, String.data_append, String.data_append]
      show trimChars m.data ++ [' '] ++ trimChars ing.data = _
      simp
    have ha : trimChars m.data ≠ [] := by
      intro hz
      exact hmne ((string_eq_empty_iff _).mpr hz)
    have hb : trimChars ing.data ≠ [] := by
      intro hz
      exact hne ((string_eq_empty_iff _).mpr hz)
    intro hcontra
    rw [string_eq_empty_iff] at hcontra
    have : trimChars e.data = [] := hcontra
    rw [hdata, trimChars_sep_append ha hb (trimChars_idem _) (trimChars_idem _)] at this
    simp at this

theorem ingredientEntry_ne_some_empty {meal : MealFromApi} {pos : Nat} :
    ingredientEntry meal pos ≠ some "" := by
  intro h
  exact jsTrim_entry_ne_empty h (by decide)

theorem jsFilterBoolean_map {f : Nat → Option String} {l : List Nat}
    (hf : ∀ x ∈ l, f x ≠ some "") :
    jsFilterBoolean (l.map f) = l.filterMap f := by
  induction l with
  | nil => rfl
  | cons a t ih =>
    rw [List.map_cons]
    unfold jsFilterBoolean
    rw [List.filterMap_cons, List.filterMap_cons]
    cases hfa : f a with
    | none =>
      exact ih fun x hx => hf x (List.mem_cons_of_mem a hx)
    | some s =>
      have hs : s ≠ "" := by
        intro he
        exact hf a (List.mem_cons_self a t) (by rw [hfa, he])
      simp only [if_neg hs]
      exact congrArg (s :: ·) (ih fun x hx => hf x (List.mem_cons_of_mem a hx))

theorem mapMealToRecipe_ingredients (meal : MealFromApi) :
    (mapMealToRecipe meal).ingredients =
      INGREDIENT_RANGE.filterMap (ingredientEntry meal) := by
  unfold mapMealToRecipe
  exact jsFilterBoolean_map fun pos _ => ingredientEntry_ne_some_empty

/-- C1: for every wire record and every position, the normalizer includes
a measure prefix in the corresponding ingredients entry iff the paired
measure is present and its trimmed value is neither empty nor the literal
`"0"`; when included the entry is trimmed measure, one space, trimmed
name, otherwise the bare trimmed name; and the three concrete examples
`{ingredient1: "Salt", measure1: "0"}` → `["Salt"]`,
`{ingredient1: "Flour", measure1: "200g"}` → `["200g Flour"]`,
`{ingredient1: " ", measure1: "1 cup"}` → `[]` hold. -/
theorem claim_C1 :
    (∀ (meal : MealFromApi) (pos : Nat) (ing m : String),
      meal.strIngredient pos = some ing → jsTrim ing ≠ "" →
      meal.strMeasure pos = some m → jsTrim m ≠ "" → jsTrim m ≠ "0" →
      ingredientEntry meal pos = some (jsTrim m ++ " " ++ jsTrim ing)) ∧
    (∀ (meal : MealFromApi) (pos : Nat) (ing : String),
      meal.strIngredient pos = some ing → jsTrim ing ≠ "" →
      (meal.strMeasure pos = none ∨
        ∃ m, meal.strMeasure pos = some m ∧ (jsTrim m = "" ∨ jsTrim m = "0")) →
      ingredientEntry meal pos = some (jsTrim ing)) ∧
    (mapMealToRecipe saltMeal).ingredients = ["Salt"] ∧
    (mapMealToRecipe flourMeal).ingredients = ["200g Flour"] ∧
    (mapMealToRecipe blankIngredientMeal).ingredients = [] := by
  refine ⟨?_, ?_, by decide, by decide, by decide⟩
  · intro meal pos ing m hing ht hm hm1 hm2
    simp only [ingredientEntry, hing, hm, Option.map_some']
    rw [if_neg ht, if_pos ⟨hm1, hm2⟩]
  · intro meal pos ing hing ht hcase
    rcases hcase with hnone | ⟨m, hm, hbad⟩
    · simp only [ingredientEntry, hing, hnone, Option.map_none']
      rw [if_neg ht]
    · simp only [ingredientEntry, hing, hm, Option.map_some']
      rw [if_neg ht, if_neg (show ¬(jsTrim m ≠ "" ∧ jsTrim m ≠ "0") by
        rintro ⟨h1, h2⟩
        rcases hbad with hb | hb
        · exact h1 hb
        · exact h2 hb)]

theorem claim_C1_witness :
    ingredientEntry flourMeal 1 = some (jsTrim "200g" ++ " " ++ jsTrim "Flour") :=
  claim_C1.1 flourMeal 1 "Flour" "200g" (by decide) (by decide) (by decide)
    (by decide) (by decide)

/-- C2: for every wire record, the ingredients sequence is the in-order
filter-map of the per-position entry over positions 1..20 ascending;
positions with an absent or blank name contribute nothing; and no entry
of the result is empty or whitespace-only. -/
theorem claim_C2 (meal : MealFromApi) :
    INGREDIENT_RANGE =
      [1, 2, 3, 4, 5, 6, 7, 8, 9, 10, 11, 12, 13, 14, 15, 16, 17, 18, 19, 20] ∧
    (mapMealToRecipe meal).ingredients =
      INGREDIENT_RANGE.filterMap (ingredientEntry meal) ∧
    (∀ pos, meal.strIngredient pos = none → ingredientEntry meal pos = none) ∧
    (∀ pos ing, meal.strIngredient pos = some ing → jsTrim ing = "" →
      ingredientEntry meal pos = none) ∧
    (∀ e ∈ (mapMealToRecipe meal).ingredients, e ≠ "" ∧ jsTrim e ≠ "") := by
  refine ⟨by decide, mapMealToRecipe_ingredients meal, ?_, ?_, ?_⟩
  · intro pos hnone
    simp [ingredientEntry, hnone]
  · intro pos ing hing ht
    simp [ingredientEntry, hing, ht]
  · intro e he
    rw [mapMealToRecipe_ingredients] at he
    rcases List.mem_filterMap.mp he with ⟨pos, _, hpos⟩
    refine ⟨?_, jsTrim_entry_ne_empty hpos⟩
    intro hcontra
    subst hcontra
    exact ingredientEntry_ne_some_empty hpos

theorem claim_C2_witness :
    (mapMealToRecipe flourMeal).ingredients =
      INGREDIENT_RANGE.filterMap (ingredientEntry flourMeal) ∧
    ("200g Flour" ≠ "" ∧ jsTrim "200g Flour" ≠ "") :=
  ⟨(claim_C2 flourMeal).2.1, (claim_C2 flourMeal).2.2.2.2 "200g Flour" (by decide)⟩

theorem splitNlAux_nl_t (rest acc : List Char) :
    splitNlAux ('\n' :: rest) true acc = splitNlAux rest true [] := rfl

theorem splitNlAux_nl_f (rest acc : List Char) :
    splitNlAux ('\n' :: rest) false acc = acc.reverse :: splitNlAux rest true [] := rfl

theorem splitNlAux_other_t {c : Char} {rest : List Char} (hc : ¬(c = '\n'))
    (hcr : ¬(c = '\r' ∧ rest.head? = some '\n')) (acc : List Char) :
    splitNlAux (c :: rest) true acc = splitNlAux rest false [c] := by
  simp only [splitNlAux]
  rw [if_neg hc, if_neg hcr]
  simp

theorem splitNlAux_other_f {c : Char} {rest : List Char} (hc : ¬(c = '\n'))
    (hcr : ¬(c = '\r' ∧ rest.head? = some '\n')) (acc : List Char) :
    splitNlAux (c :: rest) false acc = splitNlAux rest false (c :: acc) := by
  simp only [splitNlAux]
  rw [if_neg hc, if_neg hcr]
  simp

theorem specSplitAux_nl_t (rest acc : List Char) :
    specSplitAux ('\n' :: rest) true acc = specSplitAux rest true [] := rfl

theorem specSplitAux_nl_f (rest acc : List Char) :
    specSplitAux ('\n' :: rest) false acc = acc.reverse :: specSplitAux rest true [] := rfl

theorem specSplitAux_other_t {c : Char} {rest : List Char} (hc : ¬(c = '\n'))
    (acc : List Char) :
    specSplitAux (c :: rest) true acc = specSplitAux rest false [c] := by
  simp only [specSplitAux]
  rw [if_neg hc]
  simp

theorem specSplitAux_other_f {c : Char} {rest : List Char} (hc : ¬(c = '\n'))
    (acc : List Char) :
    specSplitAux (c :: rest) false acc = specSplitAux rest false (c :: acc) := by
  simp only [specSplitAux]
  rw [if_neg hc]
  simp

/-- Relation between a code-split piece and the corresponding spec-split
piece: identical, or the spec-side piece carries one extra trailing
carriage return (which the later trim removes). -/
def pieceRel (p q : List Char) : Prop := q = p ∨ q = p ++ ['\r']

theorem forall2_pieceRel_refl (l : List (List Char)) : List.Forall₂ pieceRel l l := by
  induction l with
  | nil => exact List.Forall₂.nil
  | cons p ps ih => exact List.Forall₂.cons (Or.inl rfl) ih

theorem splitNlAux_rel (n : Nat) :
    ∀ (l : List Char), l.length ≤ n → ∀ (inRun : Bool) (acc : List Char),
      List.Forall₂ pieceRel (splitNlAux l inRun acc) (specSplitAux l inRun acc) := by
  induction n with
  | zero =>
    intro l hl inRun acc
    have hnil : l = [] := List.length_eq_zero.mp (Nat.le_zero.mp hl)
    subst hnil
    exact forall2_pieceRel_refl _
  | succ n ih =>
    intro l hl inRun acc
    cases l with
    | nil => exact forall2_pieceRel_refl _
    | cons c rest =>
      have hrest : rest.length ≤ n := by
        simp only [List.length_cons] at hl
        omega
      by_cases hc : c = '\n'
      · subst hc
        cases inRun with
        | true =>
          rw [splitNlAux_nl_t, specSplitAux_nl_t]
          exact ih rest hrest true []
        | false =>
          rw [splitNlAux_nl_f, specSplitAux_nl_f]
          exact List.Forall₂.cons (Or.inl rfl) (ih rest hrest true [])
      · by_cases hcr : c = '\r' ∧ rest.head? = some '\n'
        · obtain ⟨hc2, hh⟩ := hcr
          subst hc2
          rcases List.head?_eq_some_iff.mp hh with ⟨r2, hr2⟩
          subst hr2
          have hr2len : r2.length ≤ n := by
            simp only [List.length_cons] at hl
            omega
          cases inRun with
          | true =>
            exact show List.Forall₂ pieceRel
                ([] :: splitNlAux r2 true []) (['\r'] :: specSplitAux r2 true []) from
              List.Forall₂.cons (Or.inr rfl) (ih r2 hr2len true [])
          | false =>
            exact show List.Forall₂ pieceRel
                (acc.reverse :: splitNlAux r2 true [])
                (('\r' :: acc).reverse :: specSplitAux r2 true []) from
              List.Forall₂.cons (Or.inr (List.reverse_cons '\r' acc))
                (ih r2 hr2len true [])
        · cases inRun with
          | true =>
            rw [splitNlAux_other_t hc hcr, specSplitAux_other_t hc]
            exact ih rest hrest false [c]
          | false =>
            rw [splitNlAux_other_f hc hcr, specSplitAux_other_f hc]
            exact ih rest hrest false (c :: acc)

theorem takeWhile_append_singleton {p : Char → Bool} {c : Char} (hc : p c = false)
    (l : List Char) : (l ++ [c]).takeWhile p = l.takeWhile p := by
  induction l with
  | nil => simp [List.takeWhile_cons, hc]
  | cons a t ih =>
    by_cases ha : p a = true
    · simp [List.takeWhile_cons, ha, ih]
    · simp [List.takeWhile_cons, ha]

theorem dropWhile_append_singleton {p : Char → Bool} {c : Char} (hc : p c = false)
    (l : List Char) : (l ++ [c]).dropWhile p = l.dropWhile p ++ [c] := by
  induction l with
  | nil => simp [List.dropWhile_cons, hc]
  | cons a t ih =>
    by_cases ha : p a = true
    · simpa [List.dropWhile_cons, ha] using ih
    · simp [List.dropWhile_cons, ha]

theorem cleanPiece_append_cr (p : List Char) : cleanPiece (p ++ ['\r']) = cleanPiece p := by
  unfold cleanPiece stripMarker
  have htw : (p ++ ['\r']).takeWhile Char.isDigit = p.takeWhile Char.isDigit :=
    takeWhile_append_singleton (by decide) p
  have hdw : (p ++ ['\r']).dropWhile Char.isDigit = p.dropWhile Char.isDigit ++ ['\r'] :=
    dropWhile_append_singleton (by decide) p
  cases hd : p.takeWhile Char.isDigit with
  | nil =>
    rw [hd] at htw
    simp only [htw, hd]
    exact trimChars_append_cr p
  | cons d ds =>
    rw [hd] at htw
    cases hre : p.dropWhile Char.isDigit with
    | nil =>
      rw [hre] at hdw
      simp only [htw, hd, hdw, hre, List.nil_append]
      rw [if_neg (show ¬(isCloser '\r' = true) from by decide)]
      exact trimChars_append_cr p
    | cons e es =>
      rw [hre] at hdw
      simp only [htw, hd, hdw, hre, List.cons_append]
      by_cases hce : isCloser e = true
      · rw [if_pos hce, if_pos hce]
        rw [List.dropWhile_append]
        by_cases hemp : (List.dropWhile jsWs es).isEmpty = true
        · rw [if_pos hemp, List.isEmpty_iff.mp hemp]
          decide
        · rw [if_neg hemp]
          exact trimChars_append_cr _
      · rw [if_neg hce, if_neg hce]
        exact trimChars_append_cr p

theorem cleanPiece_rel {p q : List Char} (h : pieceRel p q) : cleanPiece q = cleanPiece p := by
  rcases h with rfl | rfl
  · rfl
  · exact cleanPiece_append_cr p

theorem map_cleanPiece_eq {l1 l2 : List (List Char)}
    (h : List.Forall₂ pieceRel l1 l2) : l1.map cleanPiece = l2.map cleanPiece := by
  induction h with
  | nil => rfl
  | cons hr ht ih =>
    simp only [List.map_cons, ih]
    rw [cleanPiece_rel hr]

theorem segmentChars_eq_spec (l : List Char) : segmentChars l = segmentSpecChars l := by
  unfold segmentChars segmentSpecChars codeSplit specSplit
  rw [map_cleanPiece_eq (splitNlAux_rel l.length l le_rfl false [])]

theorem preparationSteps_some (s : String) :
    preparationSteps (some s) =
      if s = "" then [] else (segmentChars s.data).map (fun l => (⟨l⟩ : String)) := rfl

/-- C3: the segmenter returns the empty sequence for absent input; for
every present instruction text it coincides with the spec-worded
pipeline (split on runs of one-or-more consecutive line breaks, strip one
leading numeric marker of the form digits then `)` or `.` then optional
whitespace from each piece, trim, drop pieces that become empty, preserve
order); and the concrete example of the spec holds. -/
theorem claim_C3 :
    preparationSteps none = [] ∧
    preparationSteps (some "1. Boil water\n2) Add salt\n\nServe hot") =
      ["Boil water", "Add salt", "Serve hot"] ∧
    ∀ s : String, preparationSteps (some s) =
      (segmentSpecChars s.data).map (fun l => (⟨l⟩ : String)) := by
  refine ⟨rfl, by decide, ?_⟩
  intro s
  rw [preparationSteps_some]
  by_cases hs : s = ""
  · subst hs
    decide
  · rw [if_neg hs, segmentChars_eq_spec]

theorem splitNlAux_pieces_no_nl :
    ∀ (l : List Char) (inRun : Bool) (acc : List Char), '\n' ∉ acc →
      ∀ p ∈ splitNlAux l inRun acc, '\n' ∉ p := by
  intro l
  induction l with
  | nil =>
    intro inRun acc hacc p hp
    cases inRun with
    | true =>
      have hp2 : p ∈ [([] : List Char)] := hp
      rw [List.mem_singleton] at hp2
      subst hp2
      simp
    | false =>
      have hp2 : p ∈ [acc.reverse] := hp
      rw [List.mem_singleton] at hp2
      subst hp2
      rw [List.mem_reverse]
      exact hacc
  | cons c rest ih =>
    intro inRun acc hacc p hp
    by_cases hc : c = '\n'
    · subst hc
      cases inRun with
      | true =>
        rw [splitNlAux_nl_t] at hp
        exact ih true [] (by simp) p hp
      | false =>
        rw [splitNlAux_nl_f] at hp
        rcases List.mem_cons.mp hp with rfl | hp2
        · rw [List.mem_reverse]
          exact hacc
        · exact ih true [] (by simp) p hp2
    · by_cases hcr : c = '\r' ∧ rest.head? = some '\n'
      · obtain ⟨hc2, hh⟩ := hcr
        subst hc2
        rcases List.head?_eq_some_iff.mp hh with ⟨r2, hr2⟩
        subst hr2
        cases inRun with
        | true =>
          have hp2 : p ∈ [] :: splitNlAux r2 true [] := hp
          rcases List.mem_cons.mp hp2 with rfl | hp3
          · simp
          · exact ih true [] (by simp) p (by rw [splitNlAux_nl_t]; exact hp3)
        | false =>
          have hp2 : p ∈ acc.reverse :: splitNlAux r2 true [] := hp
          rcases List.mem_cons.mp hp2 with rfl | hp3
          · rw [List.mem_reverse]
            exact hacc
          · exact ih true [] (by simp) p (by rw [splitNlAux_nl_t]; exact hp3)
      · cases inRun with
        | true =>
          rw [splitNlAux_other_t hc hcr] at hp
          refine ih false [c] ?_ p hp
          simp only [List.mem_singleton]
          exact fun h => hc h.symm
        | false =>
          rw [splitNlAux_other_f hc hcr] at hp
          refine ih false (c :: acc) ?_ p hp
          intro h
          rcases List.mem_cons.mp h with h2 | h2
          · exact hc h2.symm
          · exact hacc h2

theorem segmentChars_piece_props {l : List Char} {p : List Char}
    (h : p ∈ segmentChars l) : p ≠ [] ∧ '\n' ∉ p ∧ trimChars p = p := by
  unfold segmentChars at h
  rcases List.mem_filter.mp h with ⟨hmem, hne⟩
  rcases List.mem_map.mp hmem with ⟨q, hq, rfl⟩
  refine ⟨?_, ?_, trimChars_idem _⟩
  · intro hz
    rw [hz] at hne
    simp at hne
  · intro hmemnl
    have h1 := mem_of_mem_trimChars hmemnl
    have h2 := mem_of_mem_stripMarker h1
    exact splitNlAux_pieces_no_nl l false [] (by simp) q hq h2

theorem splitNlAux_no_nl_eq :
    ∀ (p : List Char), '\n' ∉ p → ∀ (acc : List Char),
      splitNlAux p false acc = [acc.reverse ++ p] := by
  intro p
  induction p with
  | nil =>
    intro _ acc
    simp [splitNlAux]
  | cons c t ih =>
    intro hnl acc
    have hc : ¬(c = '\n') := fun h => hnl (by rw [h]; exact List.mem_cons_self _ _)
    have hcr : ¬(c = '\r' ∧ t.head? = some '\n') := by
      rintro ⟨-, hh⟩
      rcases List.head?_eq_some_iff.mp hh with ⟨t2, ht2⟩
      exact hnl (by rw [ht2]; exact List.mem_cons_of_mem c (List.mem_cons_self _ _))
    rw [splitNlAux_other_f hc hcr]
    rw [ih (fun h => hnl (List.mem_cons_of_mem c h)) (c :: acc)]
    simp

theorem splitNlAux_append_nl :
    ∀ (p : List Char), '\n' ∉ p → p.getLast? ≠ some '\r' →
    ∀ (z acc : List Char),
      splitNlAux (p ++ '\n' :: z) false acc =
        (acc.reverse ++ p) :: splitNlAux z true [] := by
  intro p
  induction p with
  | nil =>
    intro _ _ z acc
    rw [List.nil_append, splitNlAux_nl_f]
    simp
  | cons c t ih =>
    intro hnl hlast z acc
    have hc : ¬(c = '\n') := fun h => hnl (by rw [h]; exact List.mem_cons_self _ _)
    have hcr : ¬(c = '\r' ∧ (t ++ '\n' :: z).head? = some '\n') := by
      rintro ⟨hc2, hh⟩
      cases t with
      | nil => exact hlast (by rw [hc2]; rfl)
      | cons d t2 =>
        have hd : d = '\n' := Option.some.inj hh
        exact hnl (List.mem_cons_of_mem c (by rw [← hd] at *; exact List.mem_cons_self _ _))
    rw [List.cons_append, splitNlAux_other_f hc hcr]
    have hlast2 : t.getLast? ≠ some '\r' := by
      cases t with
      | nil => simp
      | cons d t2 =>
        rw [← List.getLast?_cons_cons (a := c)]
        exact hlast
    rw [ih (fun h => hnl (List.mem_cons_of_mem c h)) hlast2 z (c :: acc)]
    simp

theorem splitNlAux_run_to_go {c : Char} {r : List Char} (hc : ¬(c = '\n'))
    (hcr : ¬(c = '\r' ∧ r.head? = some '\n')) :
    splitNlAux (c :: r) true [] = splitNlAux (c :: r) false [] := by
  rw [splitNlAux_other_t hc hcr, splitNlAux_other_f hc hcr]

theorem codeSplit_joinNl :
    ∀ (l : List (List Char)),
      (∀ p ∈ l, p ≠ [] ∧ '\n' ∉ p ∧ trimChars p = p) →
      l ≠ [] → codeSplit (joinNl l) = l := by
  intro l
  induction l with
  | nil => exact fun _ h => absurd rfl h
  | cons p ps ih =>
    intro hprops _
    obtain ⟨hpne, hpnl, hptrim⟩ := hprops p (List.mem_cons_self p ps)
    have hplast : p.getLast? ≠ some '\r' := by
      intro hl
      have hws := getLast?_trimChars (l := p) (by rw [hptrim]; exact hl)
      exact absurd hws (by decide)
    cases ps with
    | nil =>
      show codeSplit p = [p]
      unfold codeSplit
      simpa using splitNlAux_no_nl_eq p hpnl []
    | cons q ps2 =>
      obtain ⟨hqne, hqnl, hqtrim⟩ := hprops q (List.mem_cons_of_mem p (List.mem_cons_self q ps2))
      have hqhead : ∃ c r, joinNl (q :: ps2) = c :: r ∧ jsWs c = false := by
        cases q with
        | nil => exact absurd rfl hqne
        | cons c0 t0 =>
          have hws : jsWs c0 = false := head?_trimChars (l := c0 :: t0) (by rw [hqtrim]; rfl)
          cases ps2 with
          | nil => exact ⟨c0, t0, rfl, hws⟩
          | cons r0 rs => exact ⟨c0, t0 ++ '\n' :: joinNl (r0 :: rs), rfl, hws⟩
      obtain ⟨c0, r0, hj, hws⟩ := hqhead
      have hc0 : ¬(c0 = '\n') := by
        intro h
        rw [h] at hws
        exact absurd hws (by decide)
      have hcr0 : ¬(c0 = '\r' ∧ r0.head? = some '\n') := by
        rintro ⟨h, -⟩
        rw [h] at hws
        exact absurd hws (by decide)
      have hrec : splitNlAux (joinNl (q :: ps2)) true [] = q :: ps2 := by
        rw [hj, splitNlAux_run_to_go hc0 hcr0, ← hj]
        have hih := ih (fun x hx => hprops x (List.mem_cons_of_mem p hx)) (by simp)
        unfold codeSplit at hih
        exact hih
      show codeSplit (p ++ '\n' :: joinNl (q :: ps2)) = p :: q :: ps2
      unfold codeSplit
      rw [splitNlAux_append_nl p hpnl hplast (joinNl (q :: ps2)) [], hrec]
      simp

/-- C4 counterexample: the segmenter strips only one leading numeric
marker per piece, so on `"1. 2. Boil"` it yields `["2. Boil"]`, and
re-segmenting the newline-join of that output strips again, yielding
`["Boil"]`: the claimed idempotence fails. -/
theorem claim_C4_counterexample :
    preparationSteps (some "1. 2. Boil") = ["2. Boil"] ∧
    joinLines (preparationSteps (some "1. 2. Boil")) = "2. Boil" ∧
    preparationSteps (some (joinLines (preparationSteps (some "1. 2. Boil")))) ≠
      preparationSteps (some "1. 2. Boil") := by
  exact ⟨by decide, by decide, by decide⟩

/-- C4 amended: joining the output with newline characters and
segmenting again yields the same sequence, provided no entry of the
first segmentation still begins with a numeric step marker (digits
followed by `)` or `.`). Without that proviso the function is not
idempotent, because each pass strips one further marker. -/
theorem claim_C4_amended (s : String)
    (h : ∀ e ∈ preparationSteps (some s), stripMarker e.data = e.data) :
    preparationSteps (some (joinLines (preparationSteps (some s)))) =
      preparationSteps (some s) := by
  by_cases hs : s = ""
  · subst hs
    decide
  · have hps : preparationSteps (some s) =
        (segmentChars s.data).map (fun l => (⟨l⟩ : String)) := by
      rw [preparationSteps_some, if_neg hs]
    cases hL : segmentChars s.data with
    | nil =>
      rw [hps, hL]
      decide
    | cons P Ps =>
      have hprops : ∀ p ∈ segmentChars s.data, p ≠ [] ∧ '\n' ∉ p ∧ trimChars p = p :=
        fun p hp => segmentChars_piece_props hp
      have hstrip : ∀ p ∈ segmentChars s.data, stripMarker p = p := by
        intro p hp
        exact h (⟨p⟩ : String) (by rw [hps]; exact List.mem_map_of_mem _ hp)
      have hcs : codeSplit (joinNl (segmentChars s.data)) = segmentChars s.data :=
        codeSplit_joinNl _ hprops (by rw [hL]; simp)
      have hseg : segmentChars (joinNl (segmentChars s.data)) = segmentChars s.data := by
        rw [show segmentChars (joinNl (segmentChars s.data)) =
            ((codeSplit (joinNl (segmentChars s.data))).map cleanPiece).filter
              (fun p => !p.isEmpty) from rfl, hcs]
        have hmap : (segmentChars s.data).map cleanPiece =
            (segmentChars s.data).map id := by
          apply List.map_congr_left
          intro p hp
          obtain ⟨hne2, hnl2, htrim2⟩ := hprops p hp
          show cleanPiece p = p
          unfold cleanPiece
          rw [hstrip p hp, htrim2]
        rw [hmap, List.map_id, List.filter_eq_self.mpr]
        intro p hp
        obtain ⟨hne2, -, -⟩ := hprops p hp
        simpa using hne2
      have hjoined : joinLines (preparationSteps (some s)) =
          (⟨joinNl (segmentChars s.data)⟩ : String) := by
        rw [hps]
        unfold joinLines
        rw [List.map_map]
        have hid : (String.data ∘ fun l : List Char => (⟨l⟩ : String)) = id := rfl
        rw [hid, List.map_id]
      have hnonempty : ¬((⟨joinNl (segmentChars s.data)⟩ : String) = "") := by
        rw [string_eq_empty_iff]
        show ¬(joinNl (segmentChars s.data) = [])
        rw [hL]
        obtain ⟨hne2, -, -⟩ :=
          hprops P (by rw [hL]; exact List.mem_cons_self _ _)
        cases Ps with
        | nil => simpa using hne2
        | cons q qs => simp [joinNl]
      rw [hjoined, preparationSteps_some, if_neg hnonempty]
      rw [show ((⟨joinNl (segmentChars s.data)⟩ : String)).data =
        joinNl (segmentChars s.data) from rfl, hseg]
      rw [hps]

theorem claim_C4_amended_witness :
    preparationSteps (some (joinLines (preparationSteps
        (some "1. Boil water\n2) Add salt\n\nServe hot")))) =
      preparationSteps (some "1. Boil water\n2) Add salt\n\nServe hot") :=
  claim_C4_amended "1. Boil water\n2) Add salt\n\nServe hot" (by decide)

/-- C5: under a success status, a `null` meals field yields success with
the empty sequence (zero matches is not an error); a present non-list,
non-null meals field fails with the malformed-response error; a list is
mapped elementwise through the normalizer, preserving server order. -/
theorem claim_C5 (resp : HttpResponse) (hok : statusOk resp.status = true) :
    (resp.meals = MealsField.jsNull →
      loadRecipes (FetchResult.response resp) = SearchOutcome.success []) ∧
    (resp.meals = MealsField.otherShape →
      loadRecipes (FetchResult.response resp) =
        SearchOutcome.failure (SearchError.malformedResponseError malformedMessage)) ∧
    (∀ meals, resp.meals = MealsField.list meals →
      loadRecipes (FetchResult.response resp) =
        SearchOutcome.success (meals.map mapMealToRecipe)) := by
  refine ⟨?_, ?_, ?_⟩
  · intro hm
    simp only [loadRecipes]
    rw [if_pos hok, hm]
  · intro hm
    simp only [loadRecipes]
    rw [if_pos hok, hm]
  · intro meals hm
    simp only [loadRecipes]
    rw [if_pos hok, hm]

theorem claim_C5_witness :
    statusOk 200 = true ∧
    loadRecipes (FetchResult.response ⟨200, MealsField.jsNull⟩) =
      SearchOutcome.success [] :=
  ⟨by decide, (claim_C5 ⟨200, MealsField.jsNull⟩ (by decide)).1 rfl⟩

/-- C6: every non-success status (outside 200..299, so `response.ok` is
false) fails with the HTTP error whose message embeds the numeric
status: the message's characters contain the decimal rendering of the
status as a contiguous segment. -/
theorem claim_C6 (resp : HttpResponse) (hbad : statusOk resp.status = false) :
    loadRecipes (FetchResult.response resp) =
      SearchOutcome.failure (SearchError.httpError (httpErrorMessage resp.status)) ∧
    ∃ pre post, (httpErrorMessage resp.status).data =
      pre ++ (toString resp.status).data ++ post := by
  constructor
  · simp only [loadRecipes]
    rw [if_neg (show ¬(statusOk resp.status = true) by rw [hbad]; simp)]
  · refine ⟨("Unable to reach recipe service (status " : String).data,
      (")" : String).data, ?_⟩
    unfold httpErrorMessage
    rw [String.data_append, String.data_append]

theorem claim_C6_witness :
    statusOk 500 = false ∧
    loadRecipes (FetchResult.response ⟨500, MealsField.jsNull⟩) =
      SearchOutcome.failure (SearchError.httpError (httpErrorMessage 500)) ∧
    ("500" : String).data = (toString (500 : Nat)).data :=
  ⟨by decide, (claim_C6 ⟨500, MealsField.jsNull⟩ (by decide)).1, by decide⟩

/-- C7: every dispatch factors through the pending state, whose status
is `loading` and whose results are untouched (both set synchronously
before the gateway call resolves); on gateway success the final state is
`idle` with results replaced wholesale and the error message cleared; on
gateway failure it is `error` with the failure's message stored and
results unchanged from before the dispatch. -/
theorem claim_C7 (s : SearchState) (result : FetchResult) :
    fetchAndTrack s result = dispatchResume (dispatchPending s) result ∧
    (dispatchPending s).status = Status.loading ∧
    (dispatchPending s).recipes = s.recipes ∧
    (∀ rs, loadRecipes result = SearchOutcome.success rs →
      fetchAndTrack s result =
        { recipes := rs, status := Status.idle, errorMessage := none }) ∧
    (∀ e, loadRecipes result = SearchOutcome.failure e →
      fetchAndTrack s result =
        { recipes := s.recipes, status := Status.error,
          errorMessage := some e.message }) := by
  refine ⟨?_, rfl, rfl, ?_, ?_⟩
  · unfold fetchAndTrack loadRecipesUpdate dispatchResume dispatchPending
    cases loadRecipes result <;> rfl
  · intro rs hrs
    unfold fetchAndTrack loadRecipesUpdate
    rw [hrs]
  · intro e he
    unfold fetchAndTrack loadRecipesUpdate
    rw [he]

theorem claim_C7_witness :
    fetchAndTrack { recipes := [], status := Status.error, errorMessage := some "x" }
        (FetchResult.response ⟨200, MealsField.jsNull⟩) =
      { recipes := [], status := Status.idle, errorMessage := none } :=
  (claim_C7 { recipes := [], status := Status.error, errorMessage := some "x" }
    (FetchResult.response ⟨200, MealsField.jsNull⟩)).2.2.2.1 [] rfl

theorem onQueryChange_not_initial {s : TimerSystem} (hIL : s.initialLoad = false)
    (hInv : TimerInv s) (q : String) :
    onQueryChange s q =
      { s with
        timers := [(s.nextId, q)]
        ref := some s.nextId
        nextId := s.nextId + 1 } := by
  unfold onQueryChange
  rw [if_neg (show ¬(s.initialLoad = true) by rw [hIL]; simp)]
  have hcleared : (match s.ref with
      | some id => s.timers.filter (fun t => t.1 != id)
      | none => s.timers) = [] := by
    rcases hInv with hT | ⟨id, q0, hT, hR⟩
    · rw [hT]
      cases s.ref <;> simp
    · rw [hT, hR]
      simp
  rw [hcleared]
  simp

theorem timerInv_onQueryChange {s : TimerSystem} (hInv : TimerInv s) (q : String) :
    TimerInv (onQueryChange s q) := by
  by_cases hIL : s.initialLoad = true
  · unfold onQueryChange
    rw [if_pos hIL]
    exact hInv
  · rw [onQueryChange_not_initial (Bool.not_eq_true s.initialLoad ▸ hIL) hInv q]
    exact Or.inr ⟨s.nextId, q, rfl, rfl⟩

theorem timerInv_onTimerFire {s : TimerSystem} (hInv : TimerInv s) (id : Nat) :
    TimerInv (onTimerFire s id) := by
  unfold onTimerFire
  cases hf : s.timers.find? (fun t => t.1 == id) with
  | none => exact hInv
  | some t =>
    left
    show s.timers.filter (fun u => u.1 != id) = []
    rcases hInv with hT | ⟨id0, q0, hT, hR⟩
    · rw [hT]
      rfl
    · rw [hT] at hf ⊢
      rw [List.find?_cons] at hf
      cases hb : (((id0, q0).1 == id) : Bool) with
      | false =>
        rw [hb] at hf
        simp at hf
      | true =>
        simp only [List.filter_cons]
        rw [show (((id0, q0).1 != id) : Bool) = false by
          simp only [bne, hb, Bool.not_true]]
        simp

theorem onTimerFire_singleton (s : TimerSystem) (id : Nat) (q : String)
    (hT : s.timers = [(id, q)]) :
    onTimerFire s id =
      { s with
        timers := []
        dispatched := s.dispatched ++ [debounceDispatchTerm q] } := by
  unfold onTimerFire
  rw [hT]
  have hfind : List.find? (fun t => t.1 == id) [(id, q)] = some (id, q) := by
    rw [List.find?_cons]
    simp
  rw [hfind]
  have hfilter : List.filter (fun u => u.1 != id) [(id, q)] = [] := by
    simp [List.filter_cons]
  simp only [hfilter]

theorem debounce_foldl :
    ∀ (qs : List String) (s : TimerSystem) (qlast : String),
      TimerInv s → s.initialLoad = false → qs.getLast? = some qlast →
      (qs.foldl onQueryChange s).dispatched = s.dispatched ∧
      (qs.foldl onQueryChange s).initialLoad = false ∧
      TimerInv (qs.foldl onQueryChange s) ∧
      ∃ id, (qs.foldl onQueryChange s).ref = some id ∧
        (qs.foldl onQueryChange s).timers = [(id, qlast)] := by
  intro qs
  induction qs with
  | nil =>
    intro s qlast _ _ hlast
    simp at hlast
  | cons q qs2 ih =>
    intro s qlast hInv hIL hlast
    cases qs2 with
    | nil =>
      have hq : qlast = q := by
        have : some q = some qlast := hlast
        exact (Option.some.inj this).symm
      subst hq
      rw [List.foldl_cons, List.foldl_nil, onQueryChange_not_initial hIL hInv qlast]
      exact ⟨rfl, hIL, Or.inr ⟨s.nextId, qlast, rfl, rfl⟩, s.nextId, rfl, rfl⟩
    | cons q2 qs3 =>
      rw [List.foldl_cons]
      have hlast2 : (q2 :: qs3).getLast? = some qlast := by
        rw [← List.getLast?_cons_cons (a := q)]
        exact hlast
      have hInv2 : TimerInv (onQueryChange s q) := timerInv_onQueryChange hInv q
      have hIL2 : (onQueryChange s q).initialLoad = false := by
        rw [onQueryChange_not_initial hIL hInv q]
        exact hIL
      obtain ⟨hd, hi, hv, id, hr, ht⟩ :=
        ih (onQueryChange s q) qlast hInv2 hIL2 hlast2
      refine ⟨?_, hi, hv, id, hr, ht⟩
      rw [hd, onQueryChange_not_initial hIL hInv q]

/-- C8: from any post-mount state satisfying the single-timer invariant,
a burst of query changes with no timer firing in between dispatches
nothing, preserves the invariant, and leaves exactly one timer pending,
armed with the most recently set text; the subsequent firing issues
exactly one dispatch, carrying that text trimmed; moreover every change
first cancels the previously armed, unfired timer (the new timer is the
only one), and both operations preserve the at-most-one-pending-timer
invariant from any state. -/
theorem claim_C8 (s : TimerSystem) (qs : List String) (qlast : String)
    (hInv : TimerInv s) (hIL : s.initialLoad = false)
    (hlast : qs.getLast? = some qlast) :
    (qs.foldl onQueryChange s).dispatched = s.dispatched ∧
    TimerInv (qs.foldl onQueryChange s) ∧
    (∃ id, (qs.foldl onQueryChange s).ref = some id ∧
      (qs.foldl onQueryChange s).timers = [(id, qlast)] ∧
      onTimerFire (qs.foldl onQueryChange s) id =
        { qs.foldl onQueryChange s with
          timers := []
          dispatched := s.dispatched ++ [debounceDispatchTerm qlast] }) ∧
    (∀ (t : TimerSystem) (q : String), TimerInv t → t.initialLoad = false →
      (onQueryChange t q).timers = [(t.nextId, q)] ∧
      TimerInv (onQueryChange t q)) ∧
    (∀ (t : TimerSystem) (id : Nat), TimerInv t → TimerInv (onTimerFire t id)) := by
  obtain ⟨hd, hi, hv, id, hr, ht⟩ := debounce_foldl qs s qlast hInv hIL hlast
  refine ⟨hd, hv, ⟨id, hr, ht, ?_⟩, ?_, ?_⟩
  · rw [onTimerFire_singleton _ id qlast ht, hd]
  · intro t q hv2 hi2
    constructor
    · rw [onQueryChange_not_initial hi2 hv2 q]
    · exact timerInv_onQueryChange hv2 q
  · intro t id2 hv2
    exact timerInv_onTimerFire hv2 id2

theorem claim_C8_witness :
    (["a", " ab "].foldl onQueryChange mountApp).dispatched = mountApp.dispatched ∧
    ∃ id, (["a", " ab "].foldl onQueryChange mountApp).ref = some id := by
  obtain ⟨hd, hv, ⟨id, hr, ht, hf⟩, h4, h5⟩ :=
    claim_C8 mountApp ["a", " ab "] " ab " (Or.inl rfl) rfl rfl
  exact ⟨hd, id, hr⟩

/-- C9 counterexample: the search state is created with
`status = "idle"` (`useState("idle")`, src/App.tsx line 122), not with
`status = loading` as the claim states. -/
theorem claim_C9_counterexample : ¬(initialSearchState.status = Status.loading) := by
  decide

/-- C9 amended: the state is created with `status = idle`; mounting the
component fires exactly one implicit dispatch, for the empty-string
query, before any `setQuery`; the first observed query value does not
arm a debounce timer (no duplicate dispatch for the initial empty
query); and the implicit dispatch's synchronous prefix immediately sets
`status = loading` before the gateway call resolves. -/
theorem claim_C9_amended :
    initialSearchState.status = Status.idle ∧
    mountApp.dispatched = [""] ∧
    mountApp.timers = [] ∧
    mountApp.initialLoad = false ∧
    (dispatchPending initialSearchState).status = Status.loading :=
  ⟨rfl, rfl, rfl, rfl, rfl⟩

/-- C10: the debounce callback, `onRefresh`, and the error-retry button
all dispatch the current query text trimmed of surrounding whitespace,
so any two query values equal after trimming produce the identical
dispatched term at every dispatch site; and a firing timer records
exactly the trimmed captured text. -/
theorem claim_C10 (q1 q2 : String) (h : jsTrim q1 = jsTrim q2) :
    debounceDispatchTerm q1 = jsTrim q1 ∧
    refreshDispatchTerm q1 = jsTrim q1 ∧
    retryDispatchTerm q1 = jsTrim q1 ∧
    debounceDispatchTerm q1 = debounceDispatchTerm q2 ∧
    refreshDispatchTerm q1 = refreshDispatchTerm q2 ∧
    retryDispatchTerm q1 = retryDispatchTerm q2 ∧
    debounceDispatchTerm q1 = refreshDispatchTerm q1 ∧
    refreshDispatchTerm q1 = retryDispatchTerm q1 ∧
    (∀ (t : TimerSystem) (id : Nat) (q : String), t.timers = [(id, q)] →
      (onTimerFire t id).dispatched = t.dispatched ++ [jsTrim q]) := by
  refine ⟨rfl, rfl, rfl, h, h, h, rfl, rfl, ?_⟩
  intro t id q hT
  rw [onTimerFire_singleton t id q hT]
  rfl

theorem claim_C10_witness :
    debounceDispatchTerm " pasta " = debounceDispatchTerm "pasta" :=
  (claim_C10 " pasta " "pasta" (by decide)).2.2.2.1
